import Mathlib

/-!
Verification of the conversation indexing/search engine specification for the
claudecode-chat-history repository.

JavaScript strings are modelled as lists of characters (`List Char`);
the numeric indices, `slice`, `indexOf`, `toLowerCase` and `length`
operations of the source are modelled by the corresponding list functions.
Identifiers documented as ISO-8601 timestamps are kept as `String` and
compared with the lexicographic order, exactly as the JavaScript code
compares them with `<=` / `>=`.
-/

/-! ### Character-list helpers (models of JS string primitives) -/

/-- Model of `s.toLowerCase()` on a string viewed as a character list. -/
def lowerL (s : List Char) : List Char := s.map Char.toLower

/-- Model of `hay.indexOf(pat)` (first occurrence, `none` when absent). -/
def idxOfSub (hay pat : List Char) : Option Nat :=
  if pat.isPrefixOf hay then some 0
  else
    match hay with
    | [] => none
    | _ :: t => (idxOfSub t pat).map (· + 1)

/-- Model of `hay.includes(pat)`. -/
def containsSub (hay pat : List Char) : Bool := (idxOfSub hay pat).isSome

/-- Index of the last space character, model of `s.lastIndexOf(" ")`
(`none` models the JS result `-1`). -/
def lastSpaceIdx : List Char → Option Nat
  | [] => none
  | c :: cs =>
    match lastSpaceIdx cs with
    | some i => some (i + 1)
    | none => if c = ' ' then some 0 else none

/-! ### `truncateText` from `src/src/lib/utils/formatters.ts`

The JS comparison `lastSpace > maxLength / 2` uses exact number division;
for an integer index `i` it is equivalent to `2 * i > maxLength`, and the
`lastIndexOf` result `-1` (modelled by `none`) never satisfies it. The
`if (!text) return ""` guard is subsumed by the `length ≤ maxLength`
branch, which returns the empty input unchanged. -/

def truncateText (text : List Char) (maxLength : Nat) : List Char :=
  if text.length ≤ maxLength then text
  else
    match lastSpaceIdx (text.take maxLength) with
    | some i =>
      if 2 * i > maxLength then (text.take maxLength).take i ++ ['.', '.', '.']
      else text.take maxLength ++ ['.', '.', '.']
    | none => text.take maxLength ++ ['.', '.', '.']

theorem lastSpaceIdx_lt_length : ∀ (l : List Char) (i : Nat),
    lastSpaceIdx l = some i → i < l.length := by
  intro l
  induction l with
  | nil => intro i h; simp [lastSpaceIdx] at h
  | cons c cs ih =>
    intro i h
    simp only [lastSpaceIdx] at h
    cases hcs : lastSpaceIdx cs with
    | some j =>
      rw [hcs] at h
      cases h
      have := ih j hcs
      simp
      omega
    | none =>
      rw [hcs] at h
      by_cases hc : c = ' '
      · simp [hc] at h
        cases h
        simp
      · simp [hc] at h

/-- Auxiliary bound: `truncateText` output length for inputs longer than
the limit. -/
theorem truncateText_length_le (text : List Char) (maxLength : Nat) :
    (truncateText text maxLength).length ≤ maxLength + 3 := by
  unfold truncateText
  by_cases h : text.length ≤ maxLength
  · simp only [h, ite_true]
    omega
  · push_neg at h
    have hlen : (text.take maxLength).length = maxLength := by
      simp only [List.length_take]
      omega
    simp only [Nat.not_le.mpr h, ite_false]
    cases hls : lastSpaceIdx (text.take maxLength) with
    | some i =>
      have hi : i < (text.take maxLength).length := lastSpaceIdx_lt_length _ _ hls
      rw [hlen] at hi
      by_cases h2 : 2 * i > maxLength
      · simp only [h2, ite_true, List.length_append, List.length_take, hlen]
        simp only [List.length_cons, List.length_nil]
        omega
      · simp only [h2, ite_false, List.length_append, hlen]
        simp only [List.length_cons, List.length_nil]
        omega
    | none =>
      simp only [List.length_append, hlen]
      simp only [List.length_cons, List.length_nil]
      omega

/-! ### Data model, from `src/src/lib/types/index.ts` -/

/-- Token count for input/output tracking. -/
structure TokenCount where
  input : Nat
  output : Nat
deriving DecidableEq, Repr

/-- Message role (closed enum `user | assistant | system`). -/
inductive Role where
  | user
  | assistant
  | system
deriving DecidableEq, Repr

/-- Content block variant tag (`text | code | tool_use | tool_result`). -/
inductive BlockType where
  | text
  | code
  | toolUse
  | toolResult
deriving DecidableEq, Repr

/-- A content block within a message. -/
structure ContentBlock where
  type : BlockType
  content : List Char
  language : Option String := none
  toolName : Option String := none
deriving DecidableEq, Repr

/-- A single message in a conversation. -/
structure Message where
  id : String
  role : Role
  content : List ContentBlock
  timestamp : String
  tokenCount : Option TokenCount := none
deriving DecidableEq, Repr

/-- A complete conversation with all messages. -/
structure Conversation where
  id : String
  projectPath : String
  projectName : String
  startTime : String
  lastTime : String
  messages : List Message
  totalTokens : TokenCount
  bookmarked : Bool := false
  tags : List String := []
deriving DecidableEq, Repr

/-- Lightweight conversation summary for the list view. -/
structure ConversationSummary where
  id : String
  projectName : String
  startTime : String
  lastTime : String
  preview : List Char
  messageCount : Nat
  bookmarked : Bool
deriving DecidableEq, Repr

/-- Filter options of `ConversationFilters`; absent optional fields are
modelled by `none`. -/
structure ConversationFilters where
  project : Option String := none
  dateStart : Option String := none
  dateEnd : Option String := none
  bookmarked : Option Bool := none
deriving DecidableEq, Repr

/-- A search result with matching conversation info. -/
structure SearchResult where
  conversationId : String
  snippet : List Char
  matchCount : Nat
  rank : Nat
deriving DecidableEq, Repr

/-! ### `getFilteredConversations` from
`src/src/lib/stores/conversations.svelte.ts` (lines 270-286)

Each `if (filters.x)` truthiness test is modelled exactly: the filter
step is skipped when the field is absent (`none`) or the empty string. -/

/-- The `if (filters.project) filtered.filter(...)` step. -/
def applyProjectFilter (o : Option String) (l : List ConversationSummary) :
    List ConversationSummary :=
  match o with
  | none => l
  | some p => if p = "" then l else l.filter (fun c => c.projectName = p)

/-- The `if (filters.dateStart) filtered.filter((c) => c.lastTime >= filters.dateStart)` step. -/
def applyDateStartFilter (o : Option String) (l : List ConversationSummary) :
    List ConversationSummary :=
  match o with
  | none => l
  | some d => if d = "" then l else l.filter (fun c => d ≤ c.lastTime)

/-- The `if (filters.dateEnd) filtered.filter((c) => c.lastTime <= filters.dateEnd)` step. -/
def applyDateEndFilter (o : Option String) (l : List ConversationSummary) :
    List ConversationSummary :=
  match o with
  | none => l
  | some d => if d = "" then l else l.filter (fun c => c.lastTime ≤ d)

/-- `getFilteredConversations` applies project, dateStart and dateEnd
filters in sequence to the store contents. -/
def getFilteredConversations (filters : ConversationFilters)
    (conversations : List ConversationSummary) : List ConversationSummary :=
  applyDateEndFilter filters.dateEnd
    (applyDateStartFilter filters.dateStart
      (applyProjectFilter filters.project conversations))

/-! ### Search over conversation content, from
`src/tests/e2e/utils/tauri-mock.ts` (the `search_conversations` case,
lines 69-114)

The mock walks the messages of a conversation and their content blocks,
counting blocks whose lowercased content contains the lowercased query
and remembering the snippet of the first such block. -/

/-- Whether a block matches the query, model of
`block.content.toLowerCase().includes(lowerQuery)`. -/
def blockMatches (q : List Char) (b : ContentBlock) : Bool :=
  containsSub (lowerL b.content) (lowerL q)

/-- Snippet extraction for one matching block: 30 characters of context
on each side of the first occurrence, clamped to the block bounds
(`Math.max(0, idx - 30)` is the truncated subtraction `idx - 30`,
`Math.min(length, idx + q.length + 30)` the `min`, and
`block.content.slice(start, end)` the drop/take below). -/
def snippetOfBlock (q : List Char) (b : ContentBlock) : List Char :=
  let i := (idxOfSub (lowerL b.content) (lowerL q)).getD 0
  let s := i - 30
  let e := min b.content.length (i + q.length + 30)
  (b.content.drop s).take (e - s)

/-- One step of the mock loop body over a block: bump `matchCount` and
set the snippet if it is still empty (`if (!snippet)`). -/
def searchBlockStep (q : List Char) (acc : Nat × List Char)
    (b : ContentBlock) : Nat × List Char :=
  if blockMatches q b then
    (acc.1 + 1, if acc.2 = [] then snippetOfBlock q b else acc.2)
  else acc

/-- The per-conversation double `forEach` over messages and blocks,
starting from `matchCount = 0` and an empty snippet. -/
def convSearch (q : List Char) (c : Conversation) : Nat × List Char :=
  c.messages.foldl (fun acc m => m.content.foldl (searchBlockStep q) acc) (0, [])

/-- All content blocks of a conversation in traversal order. -/
def blocksOf (c : Conversation) : List ContentBlock :=
  (c.messages.map Message.content).flatten

/-- Mock ranking comparator: `results.sort((a, b) => b.matchCount - a.matchCount)`,
a stable sort by descending match count. -/
def mockRankRel (a b : SearchResult) : Prop := b.matchCount ≤ a.matchCount

instance : DecidableRel mockRankRel := fun a b =>
  inferInstanceAs (Decidable (b.matchCount ≤ a.matchCount))

instance : IsTotal SearchResult mockRankRel :=
  ⟨fun a b => Nat.le_total b.matchCount a.matchCount⟩

instance : IsTrans SearchResult mockRankRel :=
  ⟨fun _ _ _ h1 h2 => Nat.le_trans h2 h1⟩

/-- The full `search_conversations` mock command: short queries yield `[]`,
otherwise conversations with a positive match count are collected and
sorted by descending match count. -/
def search_conversations_mock (q : List Char) (convs : List Conversation) :
    List SearchResult :=
  if q.length < 2 then []
  else
    (convs.filterMap (fun c =>
      let r := convSearch q c
      if r.1 ≠ 0 then some ⟨c.id, r.2, r.1, r.1⟩ else none)).insertionSort mockRankRel

/-! ### Properties of the substring-index model -/

theorem idxOfSub_spec : ∀ (hay pat : List Char) (i : Nat),
    idxOfSub hay pat = some i →
    pat.isPrefixOf (hay.drop i) = true ∧ i ≤ hay.length := by
  intro hay
  induction hay with
  | nil =>
    intro pat i h
    unfold idxOfSub at h
    by_cases hp : pat.isPrefixOf ([] : List Char)
    · simp [hp] at h
      cases h
      exact ⟨hp, Nat.le_refl 0⟩
    · simp [hp] at h
  | cons c t ih =>
    intro pat i h
    unfold idxOfSub at h
    by_cases hp : pat.isPrefixOf (c :: t)
    · simp [hp] at h
      cases h
      exact ⟨hp, Nat.zero_le _⟩
    · simp only [hp, ite_false] at h
      cases hidx : idxOfSub t pat with
      | none => rw [hidx] at h; simp at h
      | some j =>
        rw [hidx] at h
        simp at h
        obtain ⟨hpre, hle⟩ := ih pat j hidx
        subst h
        constructor
        · simpa using hpre
        · simp
          omega

theorem containsSub_bound (hay pat : List Char) (h : containsSub hay pat = true) :
    ∃ i, idxOfSub hay pat = some i ∧ i + pat.length ≤ hay.length := by
  unfold containsSub at h
  cases hidx : idxOfSub hay pat with
  | none => rw [hidx] at h; simp at h
  | some i =>
    refine ⟨i, rfl, ?_⟩
    obtain ⟨hpre, hle⟩ := idxOfSub_spec hay pat i hidx
    have hp : pat <+: hay.drop i := by
      rwa [List.isPrefixOf_iff_prefix] at hpre
    have := hp.length_le
    rw [List.length_drop] at this
    omega

theorem lowerL_length (s : List Char) : (lowerL s).length = s.length :=
  List.length_map s Char.toLower

/-- A matching block always yields a non-empty snippet (for a non-empty
query): the snippet window contains at least the occurrence itself. -/
theorem snippetOfBlock_ne_nil (q : List Char) (b : ContentBlock)
    (hq : q ≠ []) (hm : blockMatches q b = true) :
    snippetOfBlock q b ≠ [] := by
  unfold blockMatches at hm
  obtain ⟨i, hidx, hbound⟩ := containsSub_bound _ _ hm
  rw [lowerL_length, lowerL_length] at hbound
  unfold snippetOfBlock
  rw [hidx]
  simp only [Option.getD_some]
  intro hcontra
  have hql : 1 ≤ q.length := by
    cases q with
    | nil => exact absurd rfl hq
    | cons _ _ => simp
  have hlen : ((b.content.drop (i - 30)).take
      (min b.content.length (i + q.length + 30) - (i - 30))).length =
      min (min b.content.length (i + q.length + 30) - (i - 30))
        (b.content.length - (i - 30)) := by
    simp [List.length_take, List.length_drop]
  rw [hcontra] at hlen
  simp only [List.length_nil] at hlen
  omega

/-! ### Behaviour of the mock search fold -/

theorem foldl_searchBlockStep_stable (q : List Char) :
    ∀ (l : List ContentBlock) (n : Nat) (s : List Char), s ≠ [] →
    l.foldl (searchBlockStep q) (n, s) = (n + l.countP (blockMatches q), s) := by
  intro l
  induction l with
  | nil => intro n s _; simp
  | cons b bs ih =>
    intro n s hs
    simp only [List.foldl_cons, searchBlockStep]
    by_cases hb : blockMatches q b = true
    · simp only [hb, ite_true, hs, ite_false]
      rw [ih (n + 1) s hs]
      simp [List.countP_cons, hb]
      omega
    · simp only [Bool.not_eq_true] at hb
      simp only [hb, Bool.false_eq_true, ite_false]
      rw [ih n s hs]
      simp [List.countP_cons, hb]

theorem foldl_searchBlockStep_from_empty (q : List Char) (hq : q ≠ []) :
    ∀ (l : List ContentBlock) (n : Nat),
    l.foldl (searchBlockStep q) (n, []) =
      (n + l.countP (blockMatches q),
       match l.find? (blockMatches q) with
       | some b => snippetOfBlock q b
       | none => []) := by
  intro l
  induction l with
  | nil => intro n; simp
  | cons b bs ih =>
    intro n
    simp only [List.foldl_cons, searchBlockStep]
    by_cases hb : blockMatches q b = true
    · simp only [hb, ite_true]
      rw [foldl_searchBlockStep_stable q bs (n + 1) (snippetOfBlock q b)
        (snippetOfBlock_ne_nil q b hq hb)]
      rw [List.find?_cons_of_pos _ hb]
      simp [List.countP_cons, hb]
      omega
    · simp only [Bool.not_eq_true] at hb
      simp only [hb, Bool.false_eq_true, ite_false]
      rw [ih n]
      rw [List.find?_cons_of_neg _ (by simp [hb])]
      simp [List.countP_cons, hb]

/-- The nested message/block fold equals the fold over the flattened
block list. -/
theorem convSearch_eq_blocks (q : List Char) (c : Conversation) :
    convSearch q c = (blocksOf c).foldl (searchBlockStep q) (0, []) := by
  unfold convSearch blocksOf
  generalize (0, ([] : List Char)) = acc
  induction c.messages generalizing acc with
  | nil => simp
  | cons m ms ih =>
    simp only [List.foldl_cons, List.map_cons, List.flatten_cons,
      List.foldl_append]
    exact ih _

/-! ### The query/mutation engine

The native backend behind the `get_conversations`, `search_conversations`,
`toggle_bookmark` and `set_tags` commands is not part of the front-end
sources; the definitions below are reconstructed from the specification
(section 4.4 Query Engine and 4.5 Mutation Service). -/

/-- Modelled from the spec: the full filter record of the engine's
`listConversations(filters)` operation ("filters by project name (exact
match), date range (inclusive bounds on lastTime), bookmark status, and
tag set"); the engine-side backend is not under the front-end sources. -/
structure EngineFilters where
  project : Option String := none
  dateStart : Option String := none
  dateEnd : Option String := none
  bookmarked : Option Bool := none
  tags : Option (List String) := none
deriving DecidableEq, Repr

/-- Modelled from the spec: the conjunction of the per-dimension filter
conditions of `listConversations` ("No filter means all"; tag set has AND
semantics, all requested tags must be present). -/
def matchesFilters (f : EngineFilters) (c : Conversation) : Bool :=
  (match f.project with | none => true | some p => c.projectName == p) &&
  (match f.dateStart with | none => true | some d => decide (d ≤ c.lastTime)) &&
  (match f.dateEnd with | none => true | some d => decide (c.lastTime ≤ d)) &&
  (match f.bookmarked with | none => true | some b => c.bookmarked == b) &&
  (match f.tags with | none => true | some ts => ts.all (fun t => c.tags.contains t))

/-- Modelled from the spec: the result order of `listConversations`
("Result ordered by lastTime descending, ties broken by id for
determinism"). -/
def summaryOrder (a b : Conversation) : Prop :=
  b.lastTime < a.lastTime ∨ (a.lastTime = b.lastTime ∧ a.id ≤ b.id)

instance : DecidableRel summaryOrder := fun a b =>
  inferInstanceAs (Decidable
    (b.lastTime < a.lastTime ∨ (a.lastTime = b.lastTime ∧ a.id ≤ b.id)))

instance : IsTrans Conversation summaryOrder :=
  ⟨by
    intro a b c hab hbc
    rcases hab with h1 | ⟨h1, h2⟩ <;> rcases hbc with h3 | ⟨h3, h4⟩
    · exact Or.inl (lt_trans h3 h1)
    · exact Or.inl (h3 ▸ h1)
    · exact Or.inl (h1 ▸ h3)
    · exact Or.inr ⟨h1.trans h3, le_trans h2 h4⟩⟩

instance : IsTotal Conversation summaryOrder :=
  ⟨by
    intro a b
    rcases lt_trichotomy a.lastTime b.lastTime with h | h | h
    · exact Or.inr (Or.inl h)
    · rcases le_total a.id b.id with hid | hid
      · exact Or.inl (Or.inr ⟨h, hid⟩)
      · exact Or.inr (Or.inr ⟨h.symm, hid⟩)
    · exact Or.inl (Or.inl h)⟩

/-- Modelled from the spec: the engine's `listConversations(filters)`
operation, returning the conversations that pass every filter, ordered by
`lastTime` descending with ties broken by id (summaries are a field-wise
projection of the returned conversations). -/
def list_conversations (f : EngineFilters) (convs : List Conversation) :
    List Conversation :=
  (convs.filter (matchesFilters f)).insertionSort summaryOrder

/-- Modelled from the spec: the search ranking order ("ranking orders by
descending match count within a conversation, ties broken by most-recent
lastTime"), on a conversation paired with its match count. -/
def engineRankRel (a b : Conversation × Nat) : Prop :=
  b.2 < a.2 ∨ (a.2 = b.2 ∧ b.1.lastTime ≤ a.1.lastTime)

instance : DecidableRel engineRankRel := fun a b =>
  inferInstanceAs (Decidable
    (b.2 < a.2 ∨ (a.2 = b.2 ∧ b.1.lastTime ≤ a.1.lastTime)))

instance : IsTrans (Conversation × Nat) engineRankRel :=
  ⟨by
    intro a b c hab hbc
    rcases hab with h1 | ⟨h1, h2⟩ <;> rcases hbc with h3 | ⟨h3, h4⟩
    · exact Or.inl (Nat.lt_trans h3 h1)
    · exact Or.inl (h3 ▸ h1)
    · exact Or.inl (h1 ▸ h3)
    · exact Or.inr ⟨h1.trans h3, le_trans h4 h2⟩⟩

instance : IsTotal (Conversation × Nat) engineRankRel :=
  ⟨by
    intro a b
    rcases Nat.lt_trichotomy a.2 b.2 with h | h | h
    · exact Or.inr (Or.inl h)
    · rcases le_total a.1.lastTime b.1.lastTime with ht | ht
      · exact Or.inr (Or.inr ⟨h.symm, ht⟩)
      · exact Or.inl (Or.inr ⟨h, ht⟩)
    · exact Or.inl (Or.inl h)⟩

/-- Modelled from the spec: the conversations matching a query together
with their match counts (a conversation participates when it has at
least one matching block). -/
def searchMatches (q : List Char) (convs : List Conversation) :
    List (Conversation × Nat) :=
  convs.filterMap (fun c =>
    if (convSearch q c).1 ≠ 0 then some (c, (convSearch q c).1) else none)

/-- Modelled from the spec: the ranked match list of the engine's
`search(query, filters)` operation. -/
def searchRanked (q : List Char) (convs : List Conversation) :
    List (Conversation × Nat) :=
  (searchMatches q convs).insertionSort engineRankRel

/-- Modelled from the spec: projection of a ranked match to the
`SearchResult` record (snippet from the first matching block). -/
def mkSearchResult (q : List Char) (p : Conversation × Nat) : SearchResult :=
  ⟨p.1.id, (convSearch q p.1).2, p.2, p.2⟩

/-- Modelled from the spec: the engine's `search(query, filters)`
operation: queries under 2 characters return an empty result immediately;
otherwise filters apply before ranking. -/
def search_engine (q : List Char) (f : EngineFilters)
    (convs : List Conversation) : List SearchResult :=
  if q.length < 2 then []
  else (searchRanked q (convs.filter (matchesFilters f))).map (mkSearchResult q)

/-- Typed engine failures surfaced to the caller. -/
inductive EngineError where
  | notFound
deriving DecidableEq, Repr

/-- Modelled from the spec: the `toggle_bookmark(conversationId)` mutation
("flips bookmark state, returns the new state; fails NotFound if id
unknown") over the per-conversation side-state store, keyed by id. -/
def toggle_bookmark (store : List (String × Bool)) (id : String) :
    Except EngineError (Bool × List (String × Bool)) :=
  match store.lookup id with
  | some b => .ok (!b, store.map (fun p => if p.1 = id then (p.1, !p.2) else p))
  | none => .error .notFound

/-- Model of `s.trim()`: strip leading and trailing whitespace. -/
def trimL (s : List Char) : List Char :=
  ((s.dropWhile Char.isWhitespace).reverse.dropWhile Char.isWhitespace).reverse

/-- Modelled from the spec: tag normalization (trim then lowercase). -/
def normalizeTag (s : List Char) : List Char := lowerL (trimL s)

/-- Lexicographic comparison of character lists, the model of the JS
string order used to sort tags ascending. -/
def lexLe : List Char → List Char → Bool
  | [], _ => true
  | _ :: _, [] => false
  | a :: as, b :: bs => if a < b then true else if b < a then false else lexLe as bs

/-- The propositional form of `lexLe`, used as the sort relation. -/
def tagLe (a b : List Char) : Prop := lexLe a b = true

instance : DecidableRel tagLe := fun a b =>
  inferInstanceAs (Decidable (lexLe a b = true))

theorem lexLe_total : ∀ a b : List Char, lexLe a b = true ∨ lexLe b a = true := by
  intro a
  induction a with
  | nil => intro b; exact Or.inl rfl
  | cons x xs ih =>
    intro b
    cases b with
    | nil => exact Or.inr rfl
    | cons y ys =>
      unfold lexLe
      rcases lt_trichotomy x y with h | h | h
      · left
        simp [h]
      · subst h
        simp only [lt_irrefl, ite_false]
        exact ih ys
      · right
        simp [h]

theorem lexLe_trans : ∀ a b c : List Char,
    lexLe a b = true → lexLe b c = true → lexLe a c = true := by
  intro a
  induction a with
  | nil => intro b c _ _; rfl
  | cons x xs ih =>
    intro b c h1 h2
    cases b with
    | nil => simp [lexLe] at h1
    | cons y ys =>
      cases c with
      | nil => simp [lexLe] at h2
      | cons z zs =>
        unfold lexLe at h1 h2 ⊢
        by_cases hxy : x < y
        · by_cases hyz : y < z
          · simp [lt_trans hxy hyz]
          · by_cases hzy : z < y
            · simp [lexLe, hyz, hzy] at h2
            · have hy : y = z := le_antisymm (le_of_not_lt hzy) (le_of_not_lt hyz)
              subst hy
              simp [hxy]
        · by_cases hyx : y < x
          · simp [hxy, hyx] at h1
          · have hx : x = y := le_antisymm (le_of_not_lt hyx) (le_of_not_lt hxy)
            subst hx
            simp only [lt_irrefl, ite_false] at h1
            by_cases hyz : x < z
            · simp [hyz]
            · by_cases hzy : z < x
              · simp [hyz, hzy] at h2
              · simp only [hyz, hzy, ite_false] at h2 ⊢
                exact ih ys zs h1 h2

instance : IsTotal (List Char) tagLe := ⟨lexLe_total⟩

instance : IsTrans (List Char) tagLe := ⟨lexLe_trans⟩

/-- Modelled from the spec: the normalization pipeline of `set_tags`
(trim, lowercase, dedupe, sort ascending). -/
def normalizeTags (tags : List (List Char)) : List (List Char) :=
  ((tags.map normalizeTag).dedup).insertionSort tagLe

/-- Replace or insert the side-state entry of one conversation id. -/
def setStoreEntry {β : Type} (store : List (String × β)) (id : String)
    (v : β) : List (String × β) :=
  if store.any (fun p => p.1 == id) then
    store.map (fun p => if p.1 = id then (id, v) else p)
  else store ++ [(id, v)]

/-- Modelled from the spec: the `set_tags(conversationId, tags)` mutation
("replaces the full tag set for a conversation; input is normalized
(trim, lowercase, dedupe) before storage and before being returned;
returns the normalized, sorted list actually stored"). -/
def set_tags (store : List (String × List (List Char))) (id : String)
    (tags : List (List Char)) :
    List (List Char) × List (String × List (List Char)) :=
  (normalizeTags tags, setStoreEntry store id (normalizeTags tags))

/-! ### The front-end service guard, from `src/src/lib/services/tauri.ts`
(`searchConversations`, lines 159-184)

The wrapper is parameterised over the backend invocation so that the
minimum-length guard can be stated independently of any backend. -/

/-- `searchConversations` returns `[]` before invoking the backend when
the query has fewer than 2 characters. -/
def searchConversations
    (backend : List Char → EngineFilters → Except String (List SearchResult))
    (query : List Char) (filters : EngineFilters) :
    Except String (List SearchResult) :=
  if query.length < 2 then Except.ok [] else backend query filters

/-! ### LRU conversation-detail cache, from
`src/src/lib/stores/conversations.svelte.ts` (lines 214-258, 327-374,
431-469, 482-488)

Only the cache-relevant effects of `select`, `setSelectedConversation`,
`reload` and `clearCache` are modelled: the cache is represented by its
key list (`conversationCache` keys, duplicate-free by `SvelteMap`
semantics) together with the `cacheAccessOrder` array. -/

/-- Maximum number of cached conversations. -/
def CACHE_MAX_SIZE : Nat := 100

/-- The cache key list and the access-order array. -/
structure CacheState where
  cache : List String
  order : List String
deriving DecidableEq, Repr

/-- `conversationCache.set(id, ...)`: a `Map` insert keeps the key set
duplicate-free. -/
def cacheInsertKey (id : String) (cache : List String) : List String :=
  if id ∈ cache then cache else cache ++ [id]

/-- The eviction loop of `addToCache`:
`while (cache.size >= CACHE_MAX_SIZE && order.length > 0)` shift the
oldest id off the access order and delete it from the cache. -/
def evictLoop : List String → List String → List String × List String
  | cache, [] => (cache, [])
  | cache, o :: rest =>
    if CACHE_MAX_SIZE ≤ cache.length then evictLoop (cache.erase o) rest
    else (cache, o :: rest)

/-- `addToCache(id, conversation)`: evict while at capacity, then insert
and append to the access order. -/
def addToCache (s : CacheState) (id : String) : CacheState :=
  { cache := cacheInsertKey id (evictLoop s.cache s.order).1
    order := (evictLoop s.cache s.order).2 ++ [id] }

/-- `getCached(id)`: on a hit, move the id to the end of the access
order (`splice` of the first occurrence, then `push`). -/
def getCached (s : CacheState) (id : String) : CacheState :=
  if id ∈ s.cache then { cache := s.cache, order := s.order.erase id ++ [id] }
  else s

/-- `clearCache()`: drop both structures. -/
def clearCacheState : CacheState := ⟨[], []⟩

/-- The cache invalidation inside `reload()` for the preserved selection:
`conversationCache.delete(id)` plus `splice` of the access-order entry. -/
def invalidateCache (s : CacheState) (id : String) : CacheState :=
  { cache := s.cache.erase id, order := s.order.erase id }

/-- Cache effect of `select(id)`: a hit goes through `getCached`, a miss
fetches and calls `addToCache` (a failed fetch leaves the cache alone and
is covered by the unchanged state). -/
def selectOp (s : CacheState) (id : String) : CacheState :=
  if id ∈ s.cache then getCached s id else addToCache s id

/-- The cache-relevant operations of the store. -/
inductive CacheOp where
  | select (id : String)
  | setSelectedConversation (id : String)
  | reload (id : String)
  | clear
deriving DecidableEq, Repr

/-- One store operation acting on the cache state (`reload` invalidates
the preserved selection and then re-selects it). -/
def stepCache (s : CacheState) : CacheOp → CacheState
  | .select id => selectOp s id
  | .setSelectedConversation id => addToCache s id
  | .reload id => selectOp (invalidateCache s id) id
  | .clear => clearCacheState

/-- Run a sequence of store operations from the initial empty cache. -/
def runCache (ops : List CacheOp) : CacheState :=
  ops.foldl stepCache ⟨[], []⟩

/-- The cache invariant: keys are duplicate-free, every cached key is
recorded in the access order, and the size is within the bound. -/
def CacheInv (s : CacheState) : Prop :=
  s.cache.Nodup ∧ (∀ k ∈ s.cache, k ∈ s.order) ∧
    s.cache.length ≤ CACHE_MAX_SIZE

/-! ### Cache invariant preservation -/

theorem evictLoop_inv : ∀ (order cache : List String),
    cache.Nodup → (∀ k ∈ cache, k ∈ order) →
    (evictLoop cache order).1.Nodup ∧
    (∀ k ∈ (evictLoop cache order).1, k ∈ (evictLoop cache order).2) ∧
    (evictLoop cache order).1.length < CACHE_MAX_SIZE := by
  intro order
  induction order with
  | nil =>
    intro cache hnd hsub
    have hnil : cache = [] := by
      cases cache with
      | nil => rfl
      | cons c cs => exact absurd (hsub c (by simp)) (by simp)
    subst hnil
    refine ⟨List.nodup_nil, ?_, ?_⟩
    · intro k hk
      simp [evictLoop] at hk
    · simp [evictLoop, CACHE_MAX_SIZE]
  | cons o rest ih =>
    intro cache hnd hsub
    unfold evictLoop
    by_cases hcap : CACHE_MAX_SIZE ≤ cache.length
    · simp only [hcap, ite_true]
      refine ih (cache.erase o) (hnd.erase o) ?_
      intro k hk
      have hk2 := (hnd.mem_erase_iff).mp hk
      have := hsub k hk2.2
      simp only [List.mem_cons] at this
      rcases this with h | h
      · exact absurd h hk2.1
      · exact h
    · simp only [hcap, ite_false]
      exact ⟨hnd, hsub, Nat.lt_of_not_le hcap⟩

theorem addToCache_inv (s : CacheState) (id : String) (h : CacheInv s) :
    CacheInv (addToCache s id) := by
  obtain ⟨hnd, hsub, _⟩ := h
  obtain ⟨hnd2, hsub2, hlen2⟩ := evictLoop_inv s.order s.cache hnd hsub
  unfold addToCache cacheInsertKey
  by_cases hmem : id ∈ (evictLoop s.cache s.order).1
  · refine ⟨by simpa [hmem] using hnd2, ?_, ?_⟩
    · intro k hk
      simp only [hmem, ite_true] at hk
      exact List.mem_append_left _ (hsub2 k hk)
    · simp only [hmem, ite_true]
      exact Nat.le_of_lt hlen2
  · refine ⟨?_, ?_, ?_⟩
    · simp only [hmem, ite_false]
      simp [List.nodup_append, hnd2, hmem]
    · intro k hk
      simp only [hmem, ite_false, List.mem_append, List.mem_singleton] at hk
      rcases hk with hk | hk
      · exact List.mem_append_left _ (hsub2 k hk)
      · subst hk
        exact List.mem_append_right _ (by simp)
    · simp only [hmem, ite_false, List.length_append, List.length_singleton]
      omega

theorem getCached_inv (s : CacheState) (id : String) (h : CacheInv s) :
    CacheInv (getCached s id) := by
  obtain ⟨hnd, hsub, hlen⟩ := h
  unfold getCached
  by_cases hmem : id ∈ s.cache
  · simp only [hmem, ite_true]
    refine ⟨hnd, ?_, hlen⟩
    intro k hk
    by_cases hkid : k = id
    · subst hkid
      exact List.mem_append_right _ (by simp)
    · exact List.mem_append_left _ ((List.mem_erase_of_ne hkid).mpr (hsub k hk))
  · simpa [hmem] using ⟨hnd, hsub, hlen⟩

theorem invalidateCache_inv (s : CacheState) (id : String) (h : CacheInv s) :
    CacheInv (invalidateCache s id) := by
  obtain ⟨hnd, hsub, hlen⟩ := h
  refine ⟨hnd.erase id, ?_, ?_⟩
  · intro k hk
    have hk2 := (hnd.mem_erase_iff).mp hk
    exact (List.mem_erase_of_ne hk2.1).mpr (hsub k hk2.2)
  · exact Nat.le_trans (List.erase_sublist id s.cache).length_le hlen

theorem stepCache_inv (s : CacheState) (op : CacheOp) (h : CacheInv s) :
    CacheInv (stepCache s op) := by
  cases op with
  | select id =>
    unfold stepCache selectOp
    by_cases hmem : id ∈ s.cache
    · simpa [hmem] using getCached_inv s id h
    · simpa [hmem] using addToCache_inv s id h
  | setSelectedConversation id => exact addToCache_inv s id h
  | reload id =>
    unfold stepCache selectOp
    have h2 := invalidateCache_inv s id h
    by_cases hmem : id ∈ (invalidateCache s id).cache
    · simpa [hmem] using getCached_inv _ id h2
    · simpa [hmem] using addToCache_inv _ id h2
  | clear =>
    show CacheInv clearCacheState
    exact ⟨List.nodup_nil, by simp [clearCacheState],
      by simp [clearCacheState, CACHE_MAX_SIZE]⟩

theorem runCache_inv (ops : List CacheOp) : CacheInv (runCache ops) := by
  unfold runCache
  have : ∀ (l : List CacheOp) (s : CacheState), CacheInv s →
      CacheInv (l.foldl stepCache s) := by
    intro l
    induction l with
    | nil => intro s hs; exact hs
    | cons op rest ih =>
      intro s hs
      exact ih _ (stepCache_inv s op hs)
  exact this ops ⟨[], []⟩ ⟨List.nodup_nil, by simp, by simp [CACHE_MAX_SIZE]⟩

/-! ### Auxiliary lemmas for the mutation theorems -/

theorem lookup_map_toggle : ∀ (store : List (String × Bool)) (id : String),
    List.lookup id (store.map (fun p => if p.1 = id then (p.1, !p.2) else p)) =
      (List.lookup id store).map (fun b => !b) := by
  intro store id
  induction store with
  | nil => simp
  | cons p ps ih =>
    obtain ⟨k, w⟩ := p
    by_cases hk : k = id
    · subst hk
      simp [List.lookup_cons]
    · have h1 : (id == k) = false := beq_false_of_ne (Ne.symm hk)
      simp only [List.map_cons, if_neg hk, List.lookup_cons, h1]
      exact ih

theorem toggle_map_involutive : ∀ (store : List (String × Bool)) (id : String),
    ((store.map (fun p => if p.1 = id then (p.1, !p.2) else p)).map
        (fun p => if p.1 = id then (p.1, !p.2) else p)) = store := by
  intro store id
  induction store with
  | nil => simp
  | cons p ps ih =>
    obtain ⟨k, w⟩ := p
    simp only [List.map_cons, List.cons.injEq]
    refine ⟨?_, ih⟩
    by_cases hk : k = id
    · simp [hk]
    · simp [hk]

theorem lookup_setStoreEntry_hit {β : Type} : ∀ (store : List (String × β))
    (id : String) (v : β),
    store.any (fun p => p.1 == id) = true →
    List.lookup id (store.map (fun p => if p.1 = id then (id, v) else p)) =
      some v := by
  intro store id v hany
  induction store with
  | nil => simp at hany
  | cons p ps ih =>
    obtain ⟨k, w⟩ := p
    by_cases hk : k = id
    · subst hk
      simp [List.lookup_cons]
    · have h1 : (id == k) = false := beq_false_of_ne (Ne.symm hk)
      simp only [List.any_cons, Bool.or_eq_true, beq_iff_eq] at hany
      rcases hany with h | h
      · exact absurd h hk
      · simp only [List.map_cons, if_neg hk, List.lookup_cons, h1]
        exact ih h

theorem lookup_setStoreEntry_miss {β : Type} : ∀ (store : List (String × β))
    (id : String) (v : β),
    store.any (fun p => p.1 == id) = false →
    List.lookup id (store ++ [(id, v)]) = some v := by
  intro store id v hany
  induction store with
  | nil => simp [List.lookup_cons]
  | cons p ps ih =>
    obtain ⟨k, w⟩ := p
    simp only [List.any_cons, Bool.or_eq_false_iff, beq_eq_false_iff_ne] at hany
    have h1 : (id == k) = false := beq_false_of_ne (Ne.symm hany.1)
    simp only [List.cons_append, List.lookup_cons, h1]
    exact ih hany.2

theorem lookup_setStoreEntry {β : Type} (store : List (String × β))
    (id : String) (v : β) :
    List.lookup id (setStoreEntry store id v) = some v := by
  unfold setStoreEntry
  by_cases hany : store.any (fun p => p.1 == id) = true
  · rw [if_pos hany]
    exact lookup_setStoreEntry_hit store id v hany
  · rw [if_neg hany]
    exact lookup_setStoreEntry_miss store id v (Bool.eq_false_iff.mpr hany)

/-! ### Claim theorems -/

/-- C9 counterexample: the claim that `truncateText` with `maxLength`
100 always returns at most 100 characters fails on a 101-character
input without spaces, where the output has 103 characters (the full
100-character truncation plus the three-character ellipsis). -/
theorem truncateText_can_exceed_100 :
    ¬ ((truncateText (List.replicate 101 'a') 100).length ≤ 100) := by
  decide

/-- C9 (amended): the preview-producing truncation `truncateText` with
`maxLength` 100 returns the input unchanged when its length is at most
100 and otherwise returns a string of length at most 103 (at most 100
kept characters plus a 3-character ellipsis). -/
theorem truncateText_preview_bound : ∀ text : List Char,
    (text.length ≤ 100 → truncateText text 100 = text) ∧
    (truncateText text 100).length ≤ 103 := by
  intro text
  constructor
  · intro h
    unfold truncateText
    simp [h]
  · exact truncateText_length_le text 100

/-- Witness for the amended C9 theorem at a concrete short input. -/
theorem truncateText_preview_bound_witness :
    truncateText "hi".toList 100 = "hi".toList ∧
    (truncateText "hi".toList 100).length ≤ 103 :=
  ⟨(truncateText_preview_bound "hi".toList).1 (by decide),
   (truncateText_preview_bound "hi".toList).2⟩

/-- C10: after any sequence of `select`, `setSelectedConversation`,
`reload` and `clearCache` operations starting from the empty cache,
the conversation-detail LRU cache never holds more than
`CACHE_MAX_SIZE = 100` entries. -/
theorem cache_size_bounded : ∀ ops : List CacheOp,
    (runCache ops).cache.length ≤ CACHE_MAX_SIZE :=
  fun ops => (runCache_inv ops).2.2

/-- C1: for every query of length below 2, the search operation returns
the empty list as a normal (non-error) result without invoking the
backend engine — the service wrapper answers `Except.ok []` and its
result does not depend on the backend at all — and both the e2e mock
and the modelled engine answer the empty result list for such queries. -/
theorem short_query_returns_empty : ∀ query : List Char, query.length < 2 →
    (∀ backend filters, searchConversations backend query filters = Except.ok []) ∧
    (∀ b1 b2 f1 f2,
      searchConversations b1 query f1 = searchConversations b2 query f2) ∧
    (∀ convs, search_conversations_mock query convs = []) ∧
    (∀ f convs, search_engine query f convs = []) := by
  intro query hq
  refine ⟨?_, ?_, ?_, ?_⟩
  · intro backend filters
    unfold searchConversations
    rw [if_pos hq]
  · intro b1 b2 f1 f2
    unfold searchConversations
    rw [if_pos hq, if_pos hq]
  · intro convs
    unfold search_conversations_mock
    rw [if_pos hq]
  · intro f convs
    unfold search_engine
    rw [if_pos hq]

/-- Witness for C1 at the one-character query on a failing backend. -/
theorem short_query_returns_empty_witness :
    searchConversations (fun _ _ => Except.error "io") "a".toList {} =
      Except.ok [] ∧
    search_conversations_mock "a".toList [] = [] := by
  have h := short_query_returns_empty "a".toList (by decide)
  exact ⟨h.1 _ {}, h.2.2.1 []⟩

/-- C8: with a date range set, `getFilteredConversations` keeps exactly
the conversations whose `lastTime` lies between `dateStart` and
`dateEnd`, both bounds inclusive and compared against `lastTime`; a
conversation whose `lastTime` equals either bound is kept. -/
theorem date_range_filter_inclusive :
    ∀ (convs : List ConversationSummary) (ds de : String)
      (c : ConversationSummary), ds ≠ "" → de ≠ "" →
    (c ∈ getFilteredConversations
        { project := none, dateStart := some ds, dateEnd := some de,
          bookmarked := none } convs ↔
      c ∈ convs ∧ ds ≤ c.lastTime ∧ c.lastTime ≤ de) := by
  intro convs ds de c hds hde
  unfold getFilteredConversations applyProjectFilter applyDateStartFilter
    applyDateEndFilter
  simp only [hds, hde, ite_false, List.mem_filter, decide_eq_true_eq]
  tauto

/-- Witness for C8 at a concrete conversation summary whose `lastTime`
equals the upper bound. -/
theorem date_range_filter_inclusive_witness :
    (⟨"c1", "p", "2025-01-01", "2025-01-15", [], 2, false⟩ ∈
      getFilteredConversations
        { project := none, dateStart := some "2025-01-01",
          dateEnd := some "2025-01-15", bookmarked := none }
        [⟨"c1", "p", "2025-01-01", "2025-01-15", [], 2, false⟩] ↔
      (⟨"c1", "p", "2025-01-01", "2025-01-15", [], 2, false⟩ : ConversationSummary) ∈
        [(⟨"c1", "p", "2025-01-01", "2025-01-15", [], 2, false⟩ : ConversationSummary)] ∧
      ("2025-01-01" : String) ≤ "2025-01-15" ∧
      ("2025-01-15" : String) ≤ "2025-01-15") :=
  date_range_filter_inclusive _ "2025-01-01" "2025-01-15" _
    (by decide) (by decide)

/-- C2: `set_tags` normalizes its input (trim, lowercase, dedupe) before
storing, stores exactly the returned list, and returns the normalized
tag list sorted ascending; in particular on `[" Foo ", "foo", "BAR"]`
it returns `["bar", "foo"]`. -/
theorem set_tags_normalizes : ∀ (store : List (String × List (List Char)))
    (id : String) (tags : List (List Char)),
    List.Sorted tagLe (set_tags store id tags).1 ∧
    (set_tags store id tags).1.Nodup ∧
    (∀ t, t ∈ (set_tags store id tags).1 ↔ t ∈ tags.map normalizeTag) ∧
    List.lookup id (set_tags store id tags).2 = some (set_tags store id tags).1 ∧
    (set_tags [] "c0" [" Foo ".toList, "foo".toList, "BAR".toList]).1 =
      ["bar".toList, "foo".toList] := by
  intro store id tags
  refine ⟨?_, ?_, ?_, ?_, ?_⟩
  · exact List.sorted_insertionSort tagLe _
  · exact ((List.perm_insertionSort tagLe _).nodup_iff).mpr (List.nodup_dedup _)
  · intro t
    rw [show (set_tags store id tags).1 = normalizeTags tags from rfl]
    unfold normalizeTags
    rw [(List.perm_insertionSort tagLe _).mem_iff, List.mem_dedup]
  · exact lookup_setStoreEntry store id (normalizeTags tags)
  · decide

/-- C3: `toggle_bookmark` flips the stored bookmarked flag of a known
conversation id and returns the new value, so a second toggle returns
the original value and restores the original store; an unknown id fails
with `NotFound` instead of returning a value. -/
theorem toggle_bookmark_flips : ∀ (store : List (String × Bool)) (id : String),
    (∀ b, List.lookup id store = some b →
      ∃ store2, toggle_bookmark store id = Except.ok (!b, store2) ∧
        List.lookup id store2 = some (!b) ∧
        toggle_bookmark store2 id = Except.ok (b, store)) ∧
    (List.lookup id store = none →
      toggle_bookmark store id = Except.error EngineError.notFound) := by
  intro store id
  constructor
  · intro b hb
    refine ⟨store.map (fun p => if p.1 = id then (p.1, !p.2) else p), ?_, ?_, ?_⟩
    · unfold toggle_bookmark
      rw [hb]
    · rw [lookup_map_toggle, hb]
      rfl
    · unfold toggle_bookmark
      rw [lookup_map_toggle, hb]
      simp only [Option.map_some']
      rw [toggle_map_involutive]
      simp only [Bool.not_not]
  · intro h
    unfold toggle_bookmark
    rw [h]

/-- Witness for C3 at a one-entry store holding an unbookmarked
conversation. -/
theorem toggle_bookmark_flips_witness :
    ∃ store2, toggle_bookmark [("c1", false)] "c1" = Except.ok (!false, store2) ∧
      List.lookup "c1" store2 = some (!false) ∧
      toggle_bookmark store2 "c1" = Except.ok (false, [("c1", false)]) :=
  (toggle_bookmark_flips [("c1", false)] "c1").1 false (by decide)

/-- Restriction of an engine filter record to the project dimension. -/
def projectOnly (f : EngineFilters) : EngineFilters := { project := f.project }

/-- Restriction of an engine filter record to the date-range dimension. -/
def dateOnly (f : EngineFilters) : EngineFilters :=
  { dateStart := f.dateStart, dateEnd := f.dateEnd }

/-- Restriction of an engine filter record to the bookmark dimension. -/
def bookmarkedOnly (f : EngineFilters) : EngineFilters :=
  { bookmarked := f.bookmarked }

/-- Restriction of an engine filter record to the tag dimension. -/
def tagsOnly (f : EngineFilters) : EngineFilters := { tags := f.tags }

theorem mem_list_conversations (f : EngineFilters) (convs : List Conversation)
    (c : Conversation) :
    c ∈ list_conversations f convs ↔ c ∈ convs ∧ matchesFilters f c = true := by
  unfold list_conversations
  rw [(List.perm_insertionSort summaryOrder _).mem_iff]
  exact List.mem_filter

/-- C4: for every filter combination, the result set of
`list_conversations` is the intersection of the result sets of the four
per-dimension filters (project, date range, bookmark status, tag set):
the filters combine conjunctively across dimensions. -/
theorem list_conversations_conjunction :
    ∀ (f : EngineFilters) (convs : List Conversation) (c : Conversation),
    c ∈ list_conversations f convs ↔
      (c ∈ list_conversations (projectOnly f) convs ∧
       c ∈ list_conversations (dateOnly f) convs ∧
       c ∈ list_conversations (bookmarkedOnly f) convs ∧
       c ∈ list_conversations (tagsOnly f) convs) := by
  intro f convs c
  simp only [mem_list_conversations]
  unfold matchesFilters projectOnly dateOnly bookmarkedOnly tagsOnly
  simp only [Bool.and_eq_true, Bool.and_true, Bool.true_and]
  tauto

/-- C5: every list returned by `list_conversations`, with or without
filters, is sorted by `lastTime` descending (non-increasing) with ties
ordered by id; in particular consecutive items have non-increasing
`lastTime`. -/
theorem list_conversations_sorted :
    ∀ (f : EngineFilters) (convs : List Conversation),
    List.Sorted summaryOrder (list_conversations f convs) ∧
    List.Pairwise (fun a b => b.lastTime ≤ a.lastTime)
      (list_conversations f convs) := by
  intro f convs
  have hs := List.sorted_insertionSort summaryOrder
    (convs.filter (matchesFilters f))
  refine ⟨hs, ?_⟩
  refine List.Pairwise.imp ?_ hs
  intro a b h
  rcases h with h | ⟨h, _⟩
  · exact le_of_lt h
  · exact le_of_eq h.symm

/-- C6: for every query of length at least 2 the engine search output is
the ranked match list: ranked pairs are sorted by descending match count
with ties broken by the more recent `lastTime` first, and consequently
the returned `SearchResult` list has non-increasing `matchCount`. -/
theorem search_engine_ranked :
    ∀ (q : List Char) (f : EngineFilters) (convs : List Conversation),
    2 ≤ q.length →
    List.Sorted engineRankRel (searchRanked q (convs.filter (matchesFilters f))) ∧
    search_engine q f convs =
      (searchRanked q (convs.filter (matchesFilters f))).map (mkSearchResult q) ∧
    List.Pairwise (fun a b => b.matchCount ≤ a.matchCount)
      (search_engine q f convs) := by
  intro q f convs hq
  have hs := List.sorted_insertionSort engineRankRel
    (searchMatches q (convs.filter (matchesFilters f)))
  have heq : search_engine q f convs =
      (searchRanked q (convs.filter (matchesFilters f))).map (mkSearchResult q) := by
    unfold search_engine
    rw [if_neg (by omega)]
  refine ⟨hs, heq, ?_⟩
  rw [heq]
  rw [List.pairwise_map]
  refine List.Pairwise.imp ?_ hs
  intro a b h
  rcases h with h | ⟨h, _⟩
  · exact le_of_lt h
  · exact le_of_eq h.symm

/-- Witness for C6 at the two-character query on a singleton store. -/
theorem search_engine_ranked_witness :
    List.Sorted engineRankRel
      (searchRanked "ab".toList (List.filter (matchesFilters {}) [])) ∧
    search_engine "ab".toList {} [] =
      (searchRanked "ab".toList (List.filter (matchesFilters {}) [])).map
        (mkSearchResult "ab".toList) ∧
    List.Pairwise (fun a b => b.matchCount ≤ a.matchCount)
      (search_engine "ab".toList {} []) :=
  search_engine_ranked "ab".toList {} [] (by decide)

/-- C7: every result of the mock search carries, as its snippet, the
30-characters-each-side context window (clamped to the block bounds)
around the first case-insensitive occurrence of the query in the first
matching content block of the matched conversation. -/
theorem mock_search_snippet :
    ∀ (q : List Char) (convs : List Conversation) (r : SearchResult),
    r ∈ search_conversations_mock q convs →
    ∃ c ∈ convs, r.conversationId = c.id ∧
      ∃ b, (blocksOf c).find? (blockMatches q) = some b ∧
        r.snippet = snippetOfBlock q b := by
  intro q convs r hr
  unfold search_conversations_mock at hr
  by_cases hq : q.length < 2
  · rw [if_pos hq] at hr
    exact absurd hr (List.not_mem_nil r)
  · rw [if_neg hq] at hr
    have hq0 : q ≠ [] := by
      intro h
      subst h
      simp at hq
    rw [(List.perm_insertionSort mockRankRel _).mem_iff] at hr
    rw [List.mem_filterMap] at hr
    obtain ⟨c, hc, hfc⟩ := hr
    by_cases hn : (convSearch q c).1 ≠ 0
    · rw [if_pos hn] at hfc
      have hr2 : r = ⟨c.id, (convSearch q c).2, (convSearch q c).1,
          (convSearch q c).1⟩ := (Option.some.inj hfc).symm
      subst hr2
      refine ⟨c, hc, rfl, ?_⟩
      have hfold := foldl_searchBlockStep_from_empty q hq0 (blocksOf c) 0
      have hconv := convSearch_eq_blocks q c
      cases hfind : (blocksOf c).find? (blockMatches q) with
      | none =>
        exfalso
        apply hn
        rw [hconv, hfold]
        have : (blocksOf c).countP (blockMatches q) = 0 := by
          rw [List.countP_eq_zero]
          intro a ha
          have := List.find?_eq_none.mp hfind a ha
          simpa using this
        simp [this]
      | some b =>
        refine ⟨b, rfl, ?_⟩
        rw [hconv, hfold]
        simp [hfind]
    · simp only [hn, ite_false] at hfc
      exact absurd hfc (by simp)

/-- A one-text-block sample used by the search snippet witness. -/
def sampleBlock : ContentBlock :=
  { type := BlockType.text, content := "hello world".toList }

/-- A one-message sample used by the search snippet witness. -/
def sampleMessage : Message :=
  { id := "m1", role := Role.user, content := [sampleBlock], timestamp := "t" }

/-- A one-block sample conversation used by the search snippet witness. -/
def sampleConv : Conversation :=
  { id := "c1", projectPath := "/p", projectName := "p", startTime := "s",
    lastTime := "t", messages := [sampleMessage], totalTokens := ⟨0, 0⟩ }

/-- Witness for C7: the conversation `sampleConv` is matched by the
query `world`, and the produced snippet is the whole block (the context
window covers it). -/
theorem mock_search_snippet_witness :
    ∃ c ∈ [sampleConv],
      (⟨"c1", "hello world".toList, 1, 1⟩ : SearchResult).conversationId = c.id ∧
      ∃ b, (blocksOf c).find? (blockMatches "world".toList) = some b ∧
        (⟨"c1", "hello world".toList, 1, 1⟩ : SearchResult).snippet =
          snippetOfBlock "world".toList b :=
  mock_search_snippet "world".toList [sampleConv]
    ⟨"c1", "hello world".toList, 1, 1⟩
    (by
      have he : search_conversations_mock "world".toList [sampleConv] =
          [⟨"c1", "hello world".toList, 1, 1⟩] := by decide
      rw [he]
      exact List.mem_singleton.mpr rfl)
